import Mathlib

/-!
Verification of `Shortest_path_maximum_saving_function.py`.

The Python program parses a textual cost matrix into a pandas DataFrame,
derives per-vertex edge lists, greedily selects each vertex's cheapest
incident edge, deduplicates, repairs connectivity with a two-pass
reachability scan, and returns the difference between the total cost of
all distinct edges and the cost of the repaired edge set.

Below is a shallow embedding of that program.  Machine-level Python
details are modelled explicitly:
* pandas DataFrame cells are `Option Int` (`none` models NaN padding of
  ragged rows);
* Python exceptions are an explicit `PyErr` error value threaded through
  `Except`;
* the unbounded `while` loop of `add_isolated_node` takes a fuel
  argument, `none` meaning the loop did not finish within the fuel.
-/

/-- Python exceptions the program can raise: `IndexError` from an
out-of-range list subscript, `ValueError s` from `int(s)` or
`list.index`, and the pandas shape `ValueError` raised by the
`pd.DataFrame` constructor. -/
inductive PyErr where
  | indexError : PyErr
  | valueError : String → PyErr
  | shapeError : PyErr
deriving DecidableEq, Repr

/-- A DataFrame cell: `some n` is an integer cost, `none` models NaN. -/
abbrev Cell := Option Int

/-- An edge record `[row, column, cost]` as the Python code builds it. -/
abbrev Edge := String × String × Cell

/-- Split a character list at every occurrence of `sep`, like Python
`str.split(sep)`: `"".split(sep) = [""]` and separators are not kept. -/
def splitSep (sep : Char) : List Char → List (List Char)
  | [] => [[]]
  | c :: cs =>
    match splitSep sep cs with
    | [] => [[c]]
    | t :: ts => if c = sep then [] :: t :: ts else (c :: t) :: ts

/-- Python `str.splitlines()` for newline-separated text: split at
`'\n'` and drop a final empty piece produced by a trailing newline. -/
def splitLinesPy (cs : List Char) : List (List Char) :=
  let ls := splitSep '\n' cs
  if ls.getLast? = some [] then ls.dropLast else ls

/-- Parse a non-empty all-digit character list as a natural number
(the digit-string case accepted by Python `int`). -/
def parseDigits (cs : List Char) : Option Nat :=
  if cs.isEmpty then none
  else cs.foldlM (fun acc c => if c.isDigit then some (10 * acc + (c.toNat - 48)) else none) 0

/-- Embeds `texttoint` (source lines 5-22): the empty string maps to `0`,
otherwise the token is converted with Python `int`, which raises
`ValueError` on a non-numeric token.  An optional leading `'-'` sign is
accepted, as `int` does. -/
def texttoint (t : List Char) : Except PyErr Int :=
  if t = [] then .ok 0
  else
    match t with
    | '-' :: rest =>
      match parseDigits rest with
      | some n => .ok (-(n : Int))
      | none => .error (.valueError (String.mk t))
    | _ =>
      match parseDigits t with
      | some n => .ok ((n : Int))
      | none => .error (.valueError (String.mk t))

/-- One cell of the `wrangle` list comprehension:
`texttoint(cost) if cost != '-' else 0`. -/
def parseCell (t : List Char) : Except PyErr Int :=
  if t = ['-'] then .ok 0 else texttoint t

/-- The token grid of the input text: lines split at `'\n'` (with the
trailing empty line dropped), each line split at `','`. -/
def tokenGrid (input : String) : List (List (List Char)) :=
  (splitLinesPy input.toList).map (splitSep ',')

/-- Sequence a fallible function over a list, stopping at the first
error (the behaviour of a Python comprehension whose body can raise). -/
def exceptMapList (f : α → Except PyErr β) : List α → Except PyErr (List β)
  | [] => .ok []
  | a :: l =>
    match f a with
    | .error e => .error e
    | .ok b =>
      match exceptMapList f l with
      | .error e => .error e
      | .ok bs => .ok (b :: bs)

/-- Token parsing stage of `wrangle` (`parsed_network`): every token of
the grid parsed with `parseCell`; the first Python `ValueError` aborts
the comprehension. -/
def parseRows (input : String) : Except PyErr (List (List Int)) :=
  exceptMapList (fun row => exceptMapList parseCell row) (tokenGrid input)

/-- The width pandas infers for a nested-list `DataFrame`: the maximum
row length. -/
def maxRowLen (rows : List (List Int)) : Nat :=
  rows.foldl (fun m r => max m r.length) 0

/-- Embeds `wrangle` (source lines 24-45): split the text into rows and cells,
parse each cell, and build an N x N DataFrame indexed by
`vertices_name`.  The `pd.DataFrame` constructor raises a shape
`ValueError` when the row count or the inferred width differs from `N`;
rows shorter than the inferred width are padded with NaN (`none`). -/
def wrangle (input : String) (verticesName : List String) :
    Except PyErr (List (List Cell)) :=
  match parseRows input with
  | .error e => .error e
  | .ok rows =>
    let n := verticesName.length
    if rows.length ≠ n then .error .shapeError
    else if maxRowLen rows ≠ n then .error .shapeError
    else .ok (rows.map (fun r => r.map some ++ List.replicate (n - r.length) (none : Cell)))

/-- Position of a label in the index list, as Python `list.index`
computes it (`none` when absent). -/
def pyIndex : List String → String → Option Nat
  | [], _ => none
  | y :: ys, x => if y = x then some 0 else (pyIndex ys x).map (· + 1)

/-- Cell lookup `df.loc[r, c]` for a DataFrame with index and columns
both equal to `names`.  Out-of-range lookups (never performed by the
program on a well-formed frame) give `none`. -/
def locFn (names : List String) (cells : List (List Cell)) (r c : String) : Cell :=
  match pyIndex names r, pyIndex names c with
  | some i, some j => ((cells.get? i).bind (fun row => row.get? j)).join
  | _, _ => none

/-- One column step of the `get_unique_nodes` row scan (source lines
62-76): skip the diagonal, skip zero-cost cells, skip a pair either of
whose concatenated orientations is already in `seen`, otherwise record
the edge and its key. -/
def uniqueRowStep (loc : String → String → Cell) (row : String)
    (acc : List Edge × List String) (column : String) : List Edge × List String :=
  if row = column then acc
  else if loc row column = some 0 then acc
  else if (row ++ column) ∈ acc.2 ∨ (column ++ row) ∈ acc.2 then acc
  else (acc.1 ++ [(row, column, loc row column)], acc.2 ++ [row ++ column])

/-- One row of the `get_unique_nodes` scan: run the column scan on an
empty `temp` list starting from the incoming `seen`, and append the row
group when it is non-empty. -/
def uniqueOuterStep (names : List String) (loc : String → String → Cell)
    (acc : List (List Edge) × List String) (row : String) :
    List (List Edge) × List String :=
  let inner := names.foldl (uniqueRowStep loc row) ([], acc.2)
  (if inner.1.isEmpty then acc.1 else acc.1 ++ [inner.1], inner.2)

/-- Embeds `get_unique_nodes` (source lines 47-77): row-major scan
collecting each not-yet-seen non-zero off-diagonal cell, grouped by
row, with the `seen` key list shared across rows; rows contributing
nothing are dropped. -/
def getUniqueNodes (names : List String) (cells : List (List Cell)) : List (List Edge) :=
  (names.foldl (uniqueOuterStep names (locFn names cells)) ([], [])).1

/-- The unsorted edge list of one row of the matrix, in column-scan
order, skipping the diagonal and zero-cost cells (the `temp` list of
`get_nodes`, source lines 94-102). -/
def rowEdges (names : List String) (cells : List (List Cell)) (row : String) : List Edge :=
  names.filterMap (fun column =>
    if row = column then none
    else if locFn names cells row column = some 0 then none
    else some (row, column, locFn names cells row column))

/-- The `<` comparison Python `sorted(key=lambda x: x[2])` performs on
cost cells; comparisons involving NaN are `False`. -/
def costLt (a b : Cell) : Bool :=
  match a, b with
  | some x, some y => x < y
  | _, _ => false

/-- Insert an edge into an ascending-by-cost list, after all edges of
smaller or equal cost (the placement a stable ascending sort gives). -/
def insertByCost (e : Edge) : List Edge → List Edge
  | [] => [e]
  | x :: xs => if costLt e.2.2 x.2.2 then e :: x :: xs else x :: insertByCost e xs

/-- Python `sorted(nodes, key=lambda x: x[2])`: stable ascending sort
by cost, realised as left-to-right insertion. -/
def sortByCost (l : List Edge) : List Edge :=
  l.foldl (fun acc e => insertByCost e acc) []

/-- Embeds `get_nodes` (source lines 79-109): per-row edge lists, empty
rows dropped, each remaining list sorted ascending by cost. -/
def getNodes (names : List String) (cells : List (List Cell)) : List (List Edge) :=
  (((names.map (rowEdges names cells)).filter (fun l => !l.isEmpty))).map sortByCost

/-- Embeds `get_shortest_edges` (source lines 112-130): the first
element of every per-vertex list; `line[0]` raises `IndexError` on an
empty list. -/
def getShortestEdges : List (List Edge) → Except PyErr (List Edge)
  | [] => .ok []
  | line :: rest =>
    match line.head? with
    | none => .error .indexError
    | some e =>
      match getShortestEdges rest with
      | .error err => .error err
      | .ok l => .ok (e :: l)

/-- Python `list.remove`: delete the first element equal to `e` (the
program only calls it with an element of the list). -/
def removeFirst : List Edge → Edge → List Edge
  | [], _ => []
  | x :: xs, e => if x = e then xs else x :: removeFirst xs e

/-- The `for edge in edges` loop of `find_unique_node` (source lines
147-154), with Python's index-based iterator semantics over the list
being mutated: removing the current element makes the iterator skip the
element that slides into its place.  The first argument is a step
counter: the iterator index grows by one per step while the list never
grows, so `edges.length - i` bounds the remaining steps and a counter of
that size makes the recursion structural without changing the result
(when the counter is `0` the index is already past the end). -/
def findUniqueAux : Nat → List Edge → Nat → List String → List Edge
  | 0, edges, _, _ => edges
  | n + 1, edges, i, selected =>
    match edges.get? i with
    | none => edges
    | some e =>
      if (e.1 ++ e.2.1) ∈ selected ∨ (e.2.1 ++ e.1) ∈ selected then
        findUniqueAux n (removeFirst edges e) (i + 1) selected
      else
        findUniqueAux n edges (i + 1) (selected ++ [e.1 ++ e.2.1])

/-- Embeds `find_unique_node` (source lines 132-156). -/
def findUniqueNode (edges : List Edge) : List Edge :=
  findUniqueAux edges.length edges 0 []

/-- The body of the propagation loop of `get_connected_nodes` (source
lines 177-184). -/
def passStep (connected : List String) (name : String × String) : List String :=
  if name.1 ∈ connected then
    (if name.2 ∈ connected then connected else connected ++ [name.2])
  else
    (if name.2 ∈ connected then connected ++ [name.1] else connected)

/-- One pass of the propagation loop over all endpoint pairs. -/
def passOnce (connected : List String) (edgeNames : List (String × String)) : List String :=
  edgeNames.foldl passStep connected

/-- Embeds `get_connected_nodes` (source lines 158-185): seed with the two
endpoints of the first edge (`shortest_edges[0]` raises `IndexError` on
an empty list) and run the propagation loop twice. -/
def getConnectedNodes (shortestEdges : List Edge) : Except PyErr (List String) :=
  match shortestEdges with
  | [] => .error .indexError
  | e :: _ =>
    let edgeNames := shortestEdges.map (fun x => (x.1, x.2.1))
    .ok (passOnce (passOnce [e.1, e.2.1] edgeNames) edgeNames)

/-- The `while isolated_nodes` loop of `add_isolated_node` (source
lines 217-222), with fuel: pick the first isolated vertex, look its row
up with `list.index` (`ValueError` if absent) and `vertices[...]` /
`[1]` subscripts (`IndexError` if out of range), append the
second-cheapest edge, recompute the connected and isolated sets. -/
def addLoop (names : List String) (verts : List (List Edge)) :
    Nat → List Edge → List String → Option (Except PyErr (List Edge))
  | _, short, [] => some (.ok short)
  | 0, _, _ :: _ => none
  | fuel + 1, short, tmp :: _ =>
    match pyIndex names tmp with
    | none => some (.error (.valueError tmp))
    | some i =>
      match verts.get? i with
      | none => some (.error .indexError)
      | some es =>
        match es.get? 1 with
        | none => some (.error .indexError)
        | some newEdge =>
          let short' := short ++ [newEdge]
          match getConnectedNodes short' with
          | .error e => some (.error e)
          | .ok connected' =>
            addLoop names verts fuel short' (names.filter (fun x => x ∉ connected'))

/-- Embeds `add_isolated_node` (source lines 187-225): run the repair loop and
return the final (in Python: mutated-in-place) edge list together with
the count of appended edges.  The `connected_nodes` parameter is
received but never read, exactly as in the source. -/
def addIsolatedNode (fuel : Nat) (names : List String) (verts : List (List Edge))
    (short : List Edge) (isolated : List String) (_connected : List String) :
    Option (Except PyErr (List Edge × Nat)) :=
  match addLoop names verts fuel short isolated with
  | none => none
  | some (.error e) => some (.error e)
  | some (.ok final) => some (.ok (final, final.length - short.length))

/-- Python `+` on a cost accumulator, where NaN absorbs. -/
def optAdd (a b : Cell) : Cell :=
  match a, b with
  | some x, some y => some (x + y)
  | _, _ => none

/-- Python `-` on two cost totals, where NaN absorbs. -/
def optSub (a b : Cell) : Cell :=
  match a, b with
  | some x, some y => some (x - y)
  | _, _ => none

/-- Embeds `network_cost` (source lines 227-245): sum the cost field
over the edge list, starting from `0`. -/
def networkCost (graph : List Edge) : Cell :=
  graph.foldl (fun s e => optAdd s e.2.2) (some 0)

/-- The label list hard-coded inside `maximum_saving` (source line 262). -/
def verticesNameFixed : List String := ["A", "B", "C", "D", "E", "F", "G"]

/-- Embeds `maximum_saving` (source lines 247-295): the full pipeline
over the fixed seven labels.  The `fuel` argument bounds the repair
loop; `none` means the loop did not finish. -/
def maximumSaving (fuel : Nat) (inputNetwork : String) : Option (Except PyErr Cell) :=
  let names := verticesNameFixed
  match wrangle inputNetwork names with
  | .error e => some (.error e)
  | .ok df =>
    let allNodes := getNodes names df
    match getShortestEdges allNodes with
    | .error e => some (.error e)
    | .ok se0 =>
      let se1 := findUniqueNode se0
      match getConnectedNodes se1 with
      | .error e => some (.error e)
      | .ok connected =>
        let isolated := names.filter (fun x => x ∉ connected)
        match addIsolatedNode fuel names allNodes se1 isolated connected with
        | none => none
        | some (.error e) => some (.error e)
        | some (.ok (finalEdges, _)) =>
          let allUniqueEdges := (getUniqueNodes names df).flatten
          some (.ok (optSub (networkCost allUniqueEdges) (networkCost finalEdges)))

/-- Decidable equality on `Except`, needed to evaluate the embedded
program on concrete inputs inside proofs. -/
instance instDecEqExcept {ε α : Type} [DecidableEq ε] [DecidableEq α] :
    DecidableEq (Except ε α)
  | .error a, .error b =>
    match decEq a b with
    | isTrue h => isTrue (h ▸ rfl)
    | isFalse h => isFalse (fun hh => h (by cases hh; rfl))
  | .ok a, .ok b =>
    match decEq a b with
    | isTrue h => isTrue (h ▸ rfl)
    | isFalse h => isFalse (fun hh => h (by cases hh; rfl))
  | .error _, .ok _ => isFalse (fun hh => by cases hh)
  | .ok _, .error _ => isFalse (fun hh => by cases hh)

/-- Pinned instance for the result type of `addIsolatedNode`; generic
search fails to find it through the nested abbreviations. -/
instance instDecEqRepairResult : DecidableEq (Except PyErr (List Edge × Nat)) :=
  instDecEqExcept

/-- Total cost of the deduplicated distinct-edge set of an input, as
`maximum_saving` computes it (source lines 284-287): `network_cost`
summed over the flattened `get_unique_nodes` groups; `none` when
parsing fails. -/
def totalCostOf (input : String) : Option Cell :=
  match wrangle input verticesNameFixed with
  | .error _ => none
  | .ok df => some (networkCost (getUniqueNodes verticesNameFixed df).flatten)

/-- Cost of the repaired minimal edge set of an input, as
`maximum_saving` computes it (source lines 269-291): the pipeline run
up to `add_isolated_node`, then `network_cost` of the final edge list;
`none` when any stage fails or the repair loop exceeds the fuel. -/
def minimalCostOf (fuel : Nat) (input : String) : Option Cell :=
  match wrangle input verticesNameFixed with
  | .error _ => none
  | .ok df =>
    match getShortestEdges (getNodes verticesNameFixed df) with
    | .error _ => none
    | .ok se0 =>
      let se1 := findUniqueNode se0
      match getConnectedNodes se1 with
      | .error _ => none
      | .ok connected =>
        match addIsolatedNode fuel verticesNameFixed (getNodes verticesNameFixed df) se1
            (verticesNameFixed.filter (fun x => x ∉ connected)) connected with
        | some (.ok (finalEdges, _)) => some (networkCost finalEdges)
        | _ => none

/-- Follows the spec's words (sections 4.6 and 6): the orchestrator
"must hand the core a text string and label list"; identical pipeline
to `maximumSaving` but with the ordered vertex-label list received as a
parameter instead of being fixed inside. -/
def maximumSavingSpec (fuel : Nat) (verticesName : List String) (inputNetwork : String) :
    Option (Except PyErr Cell) :=
  match wrangle inputNetwork verticesName with
  | .error e => some (.error e)
  | .ok df =>
    let allNodes := getNodes verticesName df
    match getShortestEdges allNodes with
    | .error e => some (.error e)
    | .ok se0 =>
      let se1 := findUniqueNode se0
      match getConnectedNodes se1 with
      | .error e => some (.error e)
      | .ok connected =>
        let isolated := verticesName.filter (fun x => x ∉ connected)
        match addIsolatedNode fuel verticesName allNodes se1 isolated connected with
        | none => none
        | some (.error e) => some (.error e)
        | some (.ok (finalEdges, _)) =>
          let allUniqueEdges := (getUniqueNodes verticesName df).flatten
          some (.ok (optSub (networkCost allUniqueEdges) (networkCost finalEdges)))

/-- Boolean test that an edge joins the unordered vertex pair
consisting of the labels r and c, in either stored orientation. -/
def samePairB (r c : String) (e : Edge) : Bool :=
  (e.1 == r && e.2.1 == c) || (e.1 == c && e.2.1 == r)

/-- Number of edges of a list joining the unordered pair of the labels
r and c. -/
def pairCount (l : List Edge) (r c : String) : Nat :=
  l.countP (samePairB r c)

/-- Row-major enumeration of all (row, column) index pairs of the
matrix. -/
def cellSeq (names : List String) : List (String × String) :=
  (names.map (fun r => names.map (fun c => (r, c)))).flatten

/-- Follows the spec's words (section 4.2, `distinctEdges`): "scan
row-major; for each (row, column) pair with row ≠ column and a non-zero
cost, include the edge exactly once — once either orientation has been
recorded, skip the other"; the already-recorded test is on the
unordered vertex pair itself rather than on concatenated label keys. -/
def specStep (loc : String → String → Cell) (acc : List Edge) (p : String × String) :
    List Edge :=
  if p.1 = p.2 then acc
  else if loc p.1 p.2 = some 0 then acc
  else if acc.any (samePairB p.1 p.2) then acc
  else acc ++ [(p.1, p.2, loc p.1 p.2)]

/-- Spec-side distinct-edge list: fold `specStep` over the row-major
cell enumeration. -/
def distinctEdgesSpec (names : List String) (cells : List (List Cell)) : List Edge :=
  (cellSeq names).foldl (specStep (locFn names cells)) []

/-- Code-side step of `get_unique_nodes` expressed on the flat cell
enumeration: the column step applied to a (row, column) pair. -/
def codeStep (loc : String → String → Cell) (acc : List Edge × List String)
    (p : String × String) : List Edge × List String :=
  uniqueRowStep loc p.1 acc p.2

/-- Concatenation of two labels of the list determines both labels:
holds for distinct single-character labels (such as A-G) but fails for
multi-character label sets like A, AB, BA. -/
def KeyInj (names : List String) : Prop :=
  ∀ a ∈ names, ∀ b ∈ names, ∀ c ∈ names, ∀ d ∈ names, a ++ b = c ++ d → a = c ∧ b = d

/-- Property of being the first minimum-cost element of an edge list:
everything before it is strictly more expensive and nothing after it is
strictly cheaper. -/
def IsFirstMin (l : List Edge) (e : Edge) : Prop :=
  ∃ p q, l = p ++ e :: q
    ∧ (∀ x ∈ p, costLt e.2.2 x.2.2 = true)
    ∧ (∀ x ∈ q, costLt x.2.2 e.2.2 = false)

/-- Step function computing the first minimum-cost element of a list by
a left fold. -/
def firstMinStep (m : Option Edge) (e : Edge) : Option Edge :=
  match m with
  | none => some e
  | some h => if costLt e.2.2 h.2.2 then some e else some h

/-- First minimum-cost element of an edge list (`none` when empty). -/
def firstMin (l : List Edge) : Option Edge :=
  l.foldl firstMinStep none

/-- Example input of the source file (source lines 298-305), with the
empty cell in the third row. -/
def mainText : String :=
  "-,14,10,19,-,-,-\n14,-,-,15,18,-,-\n10,-,-,26,,29,-\n19,15,26,-,16,17,21\n-,18,-,16,-,-,9\n-,-,29,17,-,-,25\n-,-,-,21,9,25,-\n"

/-- The 7-vertex matrix of spec section 8 (labels A-G). -/
def specText : String :=
  "-,14,10,19,-,-,-\n14,-,-,15,18,-,-\n10,-,-,26,-,29,-\n19,15,26,-,16,17,21\n-,18,-,16,-,-,9\n-,-,29,17,-,-,25\n-,-,-,21,9,25,-"

/-- A 7-vertex input whose repaired minimal edge set costs more than
the distinct-edge total: the mutually-cheapest pair C-D survives
deduplication twice and C's isolation repair appends the C-A edge, so
the minimal cost is 347 against a total of 247. -/
def negText : String :=
  "-,10,101,-,11,12,13\n10,-,-,-,-,-,-\n101,-,-,100,-,-,-\n-,-,100,-,-,-,-\n11,-,-,-,-,-,-\n12,-,-,-,-,-,-\n13,-,-,-,-,-,-"

/-- A 7x7 matrix with no edge anywhere. -/
def dashText : String :=
  "-,-,-,-,-,-,-\n-,-,-,-,-,-,-\n-,-,-,-,-,-,-\n-,-,-,-,-,-,-\n-,-,-,-,-,-,-\n-,-,-,-,-,-,-\n-,-,-,-,-,-,-"

/-- The all-zero cell table `wrangle` produces for `dashText`. -/
def dashCells : List (List Cell) :=
  List.replicate 7 (List.replicate 7 (some 0))

/-- A 2x2 matrix text with a single edge of cost 5. -/
def twoText : String := "-,5\n5,-"

/-- Four labels whose graph is two disjoint mutually-cheapest pairs:
A-B of cost 1 and C-D of cost 1. -/
def names4 : List String := ["A", "B", "C", "D"]

/-- Cell table for `names4`: edges A-B and C-D only. -/
def cells4 : List (List Cell) :=
  [[some 0, some 1, some 0, some 0],
   [some 1, some 0, some 0, some 0],
   [some 0, some 0, some 0, some 1],
   [some 0, some 0, some 1, some 0]]

/-- The per-vertex cheapest-edge candidate list of `cells4`. -/
def mutualCandidate : List Edge :=
  [("A", "B", some 1), ("B", "A", some 1), ("C", "D", some 1), ("D", "C", some 1)]

/-- Five labels with components A-B (cost 1) and C-D-E (C-D cost 1,
C-E cost 2, D-E cost 3): the repair loop keeps appending C's
second-cheapest edge C-E, which never joins the two components. -/
def names5 : List String := ["A", "B", "C", "D", "E"]

/-- Cell table for `names5`. -/
def cells5 : List (List Cell) :=
  [[some 0, some 1, some 0, some 0, some 0],
   [some 1, some 0, some 0, some 0, some 0],
   [some 0, some 0, some 0, some 1, some 2],
   [some 0, some 0, some 1, some 0, some 3],
   [some 0, some 0, some 2, some 3, some 0]]

/-- The deduplicated candidate edge set of `cells5` (the dedup slip
keeps the pair C-D twice, which does not matter for divergence). -/
def shortFive : List Edge :=
  [("A", "B", some 1), ("C", "D", some 1), ("D", "C", some 1), ("E", "C", some 2)]

/-- The edge the repair loop appends forever on the `cells5` input. -/
def ceEdge : Edge := ("C", "E", some 2)

/-- Labels demonstrating the concatenated-key collision of
`get_unique_nodes`: the key of the pair (A, BA) equals the key of the
pair (AB, A). -/
def namesC2 : List String := ["A", "AB", "BA"]

/-- Cell table for `namesC2`: the pair A-BA has cost 1 recorded in both
orientations, the pair AB-A has cost 7 recorded only at row AB. -/
def cellsC2 : List (List Cell) :=
  [[some 0, some 0, some 1],
   [some 7, some 0, some 0],
   [some 1, some 0, some 0]]

set_option maxRecDepth 40000 in
/-- C9: for the 7-vertex scenario of spec section 8 with labels A-G,
the total cost of the deduplicated distinct-edge set — `network_cost`
summed over `get_unique_nodes` of the parsed matrix — equals 219. -/
theorem c9_total_cost_of_spec_matrix :
    totalCostOf specText = some (some 219) := by decide

set_option maxRecDepth 40000 in
/-- C3 (failing input): on the candidate list produced by the
per-vertex cheapest-edge selection for the two-mutual-pair matrix
`cells4`, `find_unique_node` removes the duplicate (B, A) but — because
Python's iterator skips the element that slides into the removed slot —
keeps both orientations of the pair C-D, so an unordered pair appears
twice in its result. -/
theorem c3_find_unique_node_keeps_duplicate_pair :
    getShortestEdges (getNodes names4 cells4) = .ok mutualCandidate
    ∧ findUniqueNode mutualCandidate =
        [("A", "B", some 1), ("C", "D", some 1), ("D", "C", some 1)]
    ∧ pairCount (findUniqueNode mutualCandidate) "C" "D" = 2 := by decide

set_option maxRecDepth 40000 in
/-- C6 (failing input): on the `cells4` state every vertex has at least
one incident edge, the first isolated vertex C has exactly one incident
edge, and `add_isolated_node` fails with the out-of-range `IndexError`
of the `[1]` subscript, not with any named `InsufficientEdgesError`
(the embedding has no such error because the source defines none). -/
theorem c6_repair_raises_index_error :
    names4.all (fun r => !(rowEdges names4 cells4 r).isEmpty) = true
    ∧ (getNodes names4 cells4).get? 2 = some [("C", "D", some 1)]
    ∧ getConnectedNodes (findUniqueNode mutualCandidate) = .ok ["A", "B"]
    ∧ names4.filter (fun x => x ∉ ["A", "B"]) = ["C", "D"]
    ∧ addIsolatedNode 9 names4 (getNodes names4 cells4) (findUniqueNode mutualCandidate)
        ["C", "D"] ["A", "B"] = some (.error .indexError) := by decide

set_option maxRecDepth 40000 in
/-- C2 (counterexample): with the multi-character labels A, AB, BA the
concatenated keys of the pairs (A, BA) and (AB, A) collide, so the pair
AB-A — distinct vertices, non-zero cost 7 — appears zero times in
`get_unique_nodes`, refuting "each unordered pair of distinct vertices
with a non-zero cost exactly once" for every cost matrix. -/
theorem c2_counterexample_key_collision :
    locFn namesC2 cellsC2 "AB" "A" = some 7
    ∧ ("AB" : String) ≠ "A"
    ∧ (getUniqueNodes namesC2 cellsC2).flatten = [("A", "BA", some 1)]
    ∧ pairCount (getUniqueNodes namesC2 cellsC2).flatten "AB" "A" = 0 := by decide

set_option maxRecDepth 40000 in
/-- C7 (counterexample): the text `"1,2\n3"` against two labels has a
second row with fewer cells than N = 2, yet `wrangle` does not fail —
pandas pads the short row with NaN — refuting "a row/column count
differing from N makes parsing fail with a ParseError". -/
theorem c7_counterexample_ragged_row_parses :
    (tokenGrid "1,2\n3").map List.length = [2, 1]
    ∧ wrangle "1,2\n3" ["A", "B"] = .ok [[some 1, some 2], [some 3, none]] := by decide

set_option maxRecDepth 40000 in
/-- C8 (counterexample): `maximum_saving` takes no label list; on a
2x2 matrix text it fails with the pandas shape error of the internally
fixed seven labels, while the spec's label-parameterised orchestrator
with the supplied labels A, B computes a saving of 0 — refuting "the
orchestrator receives from its caller both the matrix text and a
companion ordered list of N unique vertex labels ... for any N". -/
theorem c8_counterexample_labels_fixed :
    maximumSaving 10 twoText = some (.error .shapeError)
    ∧ maximumSavingSpec 10 ["A", "B"] twoText = some (.ok (some 0)) := by decide

set_option maxRecDepth 40000 in
/-- C1: whenever `maximum_saving` completes with a value, that value is
exactly `totalCost - minimalCost` — the `network_cost` of the
deduplicated distinct-edge set minus the `network_cost` of the repaired
minimal edge set — and the value can be negative (on `negText` it is
-100). -/
theorem c1_maximum_saving_identity :
    (∀ fuel input v, maximumSaving fuel input = some (.ok v) →
      ∃ t m, totalCostOf input = some t ∧ minimalCostOf fuel input = some m
        ∧ v = optSub t m)
    ∧ maximumSaving 10 negText = some (.ok (some (-100)))
    ∧ ((-100 : Int) < 0) := by
  refine ⟨?_, by decide, by decide⟩
  intro fuel input v h
  simp only [maximumSaving] at h
  cases hw : wrangle input verticesNameFixed with
  | error e => rw [hw] at h; simp at h
  | ok df =>
    rw [hw] at h
    try dsimp only at h
    cases hse : getShortestEdges (getNodes verticesNameFixed df) with
    | error e => rw [hse] at h; simp at h
    | ok se0 =>
      rw [hse] at h
      try dsimp only at h
      cases hcn : getConnectedNodes (findUniqueNode se0) with
      | error e => rw [hcn] at h; simp at h
      | ok connected =>
        rw [hcn] at h
        try dsimp only at h
        cases har : addIsolatedNode fuel verticesNameFixed (getNodes verticesNameFixed df)
            (findUniqueNode se0)
            (verticesNameFixed.filter (fun x => x ∉ connected)) connected with
        | none => rw [har] at h; simp at h
        | some res =>
          rw [har] at h
          try dsimp only at h
          cases res with
          | error e => simp at h
          | ok pair =>
            obtain ⟨finalEdges, cnt⟩ := pair
            simp only [Option.some.injEq, Except.ok.injEq] at h
            refine ⟨networkCost (getUniqueNodes verticesNameFixed df).flatten,
                    networkCost finalEdges, ?_, ?_, ?_⟩
            · simp [totalCostOf, hw]
            · simp only [minimalCostOf, hw, hse, hcn, decide_not]
              simp only [decide_not] at har
              rw [har]
            · exact h.symm

set_option maxRecDepth 40000 in
/-- C1 (witness): the identity instantiated on the example input of the
source file, where the saving is 138. -/
theorem c1_maximum_saving_identity_witness :
    maximumSaving 10 mainText = some (.ok (some 138))
    ∧ ∃ t m, totalCostOf mainText = some t ∧ minimalCostOf 10 mainText = some m
        ∧ (some 138 : Cell) = optSub t m :=
  ⟨by decide, c1_maximum_saving_identity.1 10 mainText (some 138) (by decide)⟩

/-- C10: `get_connected_nodes` of an empty edge list fails with the
`IndexError` of the `shortest_edges[0]` subscript, and `maximum_saving`
on any input whose parsed 7x7 matrix has every off-diagonal cell zero
fails with that `IndexError` instead of returning 0. -/
theorem c10_all_no_edge_matrix_fails :
    getConnectedNodes [] = .error .indexError
    ∧ ∀ input df, wrangle input verticesNameFixed = .ok df →
        (∀ r ∈ verticesNameFixed, ∀ c ∈ verticesNameFixed, r ≠ c →
          locFn verticesNameFixed df r c = some 0) →
        ∀ fuel, maximumSaving fuel input = some (.error .indexError) := by
  constructor
  · rfl
  · intro input df hw hzero fuel
    have hrow : ∀ r ∈ verticesNameFixed, rowEdges verticesNameFixed df r = [] := by
      intro r hr
      apply List.filterMap_eq_nil_iff.mpr
      intro c hc
      by_cases hrc : r = c
      · simp [hrc]
      · simp [hrc, hzero r hr c hc hrc]
    have hnodes : getNodes verticesNameFixed df = [] := by
      unfold getNodes
      have hf : (verticesNameFixed.map (rowEdges verticesNameFixed df)).filter
          (fun l => !l.isEmpty) = [] := by
        apply List.filter_eq_nil_iff.mpr
        intro l hl
        obtain ⟨r, hr, rfl⟩ := List.mem_map.mp hl
        simp [hrow r hr]
      rw [hf]
      rfl
    simp only [maximumSaving, hw, hnodes]
    rfl

set_option maxRecDepth 40000 in
/-- C10 (witness): the all-no-edge 7x7 text parses to the all-zero cell
table and `maximum_saving` on it fails with `IndexError`. -/
theorem c10_all_no_edge_matrix_fails_witness :
    wrangle dashText verticesNameFixed = .ok dashCells
    ∧ maximumSaving 3 dashText = some (.error .indexError) :=
  ⟨by decide, c10_all_no_edge_matrix_fails.2 dashText dashCells (by decide) (by decide) 3⟩

/-- Folding the propagation step over an appended list splits into two
folds. -/
theorem passOnce_append (c : List String) (l1 l2 : List (String × String)) :
    passOnce c (l1 ++ l2) = passOnce (passOnce c l1) l2 :=
  List.foldl_append ..

/-- Propagation over any number of copies of the C-E endpoint pair
leaves the connected set A, B unchanged: neither endpoint is in it. -/
theorem passOnce_replicate_ce :
    ∀ k, passOnce ["A", "B"] (List.replicate k ("C", "E")) = ["A", "B"] := by
  intro k
  induction k with
  | zero => rfl
  | succ n ih =>
    rw [List.replicate_succ]
    show passOnce (passStep ["A", "B"] ("C", "E")) (List.replicate n ("C", "E")) = ["A", "B"]
    have hstep : passStep ["A", "B"] ("C", "E") = ["A", "B"] := by decide
    rw [hstep]
    exact ih

/-- However many copies of the C-E edge the repair loop has appended to
the `cells5` candidate set, the two-pass connected set stays A, B. -/
theorem connected_shortFive_replicate (k : Nat) :
    getConnectedNodes (shortFive ++ List.replicate k ceEdge) = .ok ["A", "B"] := by
  have hsf : shortFive ++ List.replicate k ceEdge
      = ("A", "B", some 1) ::
        ([("C", "D", some 1), ("D", "C", some 1), ("E", "C", some 2)]
          ++ List.replicate k ceEdge) := by
    simp [shortFive]
  rw [hsf]
  show Except.ok (passOnce (passOnce ["A", "B"] _) _) = _
  have hmap : (("A", "B", (some 1 : Cell)) ::
        ([("C", "D", some 1), ("D", "C", some 1), ("E", "C", some 2)]
          ++ List.replicate k ceEdge)).map (fun x => (x.1, x.2.1))
      = [("A", "B"), ("C", "D"), ("D", "C"), ("E", "C")] ++ List.replicate k ("C", "E") := by
    simp [ceEdge, List.map_replicate]
  rw [hmap]
  rw [passOnce_append, passOnce_append]
  have h1 : passOnce ["A", "B"] [("A", "B"), ("C", "D"), ("D", "C"), ("E", "C")] = ["A", "B"] := by
    decide
  rw [h1, passOnce_replicate_ce, h1, passOnce_replicate_ce]

/-- The repair loop on the `cells5` state never returns, whatever the
fuel: every iteration appends the same C-E edge and recomputes the same
connected and isolated sets. -/
theorem addLoop_cells5_diverges :
    ∀ fuel k, addLoop names5 (getNodes names5 cells5) fuel
      (shortFive ++ List.replicate k ceEdge) ["C", "D", "E"] = none := by
  intro fuel
  induction fuel with
  | zero => intro k; rfl
  | succ n ih =>
    intro k
    have hidx : pyIndex names5 "C" = some 2 := by decide
    have hverts : (getNodes names5 cells5).get? 2
        = some [("C", "D", some 1), ("C", "E", some 2)] := by decide
    have happ : shortFive ++ List.replicate k ceEdge ++ [ceEdge]
        = shortFive ++ List.replicate (k + 1) ceEdge := by
      rw [List.append_assoc, ← List.replicate_succ' ..]
    show addLoop names5 (getNodes names5 cells5) (n + 1)
        (shortFive ++ List.replicate k ceEdge) ("C" :: ["D", "E"]) = none
    simp only [addLoop, hidx, hverts]
    have hget : [("C", "D", (some 1 : Cell)), ("C", "E", some 2)].get? 1 = some ceEdge := rfl
    rw [hget]
    try dsimp only
    rw [happ, connected_shortFive_replicate (k + 1)]
    try dsimp only
    have hfilt : names5.filter (fun x => x ∉ ["A", "B"]) = ["C", "D", "E"] := by decide
    rw [hfilt]
    exact ih (k + 1)

set_option maxRecDepth 40000 in
/-- C4 (failing input): on the two-component `cells5` matrix every
vertex has at least one incident edge, yet `add_isolated_node` — run on
the pipeline's own candidate set, connected set and isolated set —
never terminates: the first isolated vertex C keeps contributing its
second-cheapest edge C-E, which lies inside C's own component and never
joins the component of the first edge. -/
theorem c4_repair_loop_diverges :
    getShortestEdges (getNodes names5 cells5) =
      .ok [("A", "B", some 1), ("B", "A", some 1), ("C", "D", some 1),
           ("D", "C", some 1), ("E", "C", some 2)]
    ∧ findUniqueNode [("A", "B", some 1), ("B", "A", some 1), ("C", "D", some 1),
        ("D", "C", some 1), ("E", "C", some 2)] = shortFive
    ∧ getConnectedNodes shortFive = .ok ["A", "B"]
    ∧ names5.filter (fun x => x ∉ ["A", "B"]) = ["C", "D", "E"]
    ∧ names5.all (fun r => !(rowEdges names5 cells5 r).isEmpty) = true
    ∧ ∀ fuel, addIsolatedNode fuel names5 (getNodes names5 cells5) shortFive
        ["C", "D", "E"] ["A", "B"] = none := by
  refine ⟨by decide, by decide, by decide, by decide, by decide, ?_⟩
  intro fuel
  unfold addIsolatedNode
  have hdiv := addLoop_cells5_diverges fuel 0
  rw [List.replicate_zero, List.append_nil] at hdiv
  rw [hdiv]

/-- C8 (amended): `maximum_saving` takes only the matrix text; it
coincides with the spec's label-parameterised orchestrator specialised
to the internally fixed labels A-G, and any input that tokenises and
parses but has a row count other than 7 fails with the pandas shape
error instead of being computed over caller-supplied labels. -/
theorem c8_amended_labels_internal :
    (∀ fuel input, maximumSaving fuel input = maximumSavingSpec fuel verticesNameFixed input)
    ∧ (∀ fuel input rows, parseRows input = .ok rows → rows.length ≠ 7 →
        maximumSaving fuel input = some (.error .shapeError)) := by
  constructor
  · intro fuel input
    rfl
  · intro fuel input rows hp hlen
    have hw : wrangle input verticesNameFixed = .error .shapeError := by
      unfold wrangle
      rw [hp]
      simp [verticesNameFixed, hlen]
    simp only [maximumSaving, hw]

/-- C8 (witness): the amended statement instantiated on the 2x2 text:
it agrees with the spec orchestrator at the fixed labels and fails with
the shape error. -/
theorem c8_amended_labels_internal_witness :
    maximumSaving 5 twoText = maximumSavingSpec 5 verticesNameFixed twoText
    ∧ maximumSaving 5 twoText = some (.error .shapeError) :=
  ⟨c8_amended_labels_internal.1 5 twoText,
   c8_amended_labels_internal.2 5 twoText [[0, 5], [5, 0]] (by decide) (by decide)⟩

/-- C7 (amended): the empty token and the `-` marker both parse to 0; a
failing cell parse carries the Python `ValueError` naming the offending
token (not its row and column) and only happens for non-empty,
non-marker, non-numeric tokens; a token-level error propagates out of
`wrangle` unchanged with no partial result; and once all tokens parse,
`wrangle` fails with the pandas shape error exactly when the row count
or the maximum row width differs from N, otherwise returning the
NaN-padded table (so a short row among full-width rows does NOT fail). -/
theorem c7_amended_parsing :
    texttoint [] = .ok 0
    ∧ parseCell ['-'] = .ok 0
    ∧ (∀ t e, parseCell t = .error e →
        e = .valueError (String.mk t) ∧ t ≠ [] ∧ t ≠ ['-'])
    ∧ (∀ input names e, parseRows input = .error e → wrangle input names = .error e)
    ∧ (∀ input names rows, parseRows input = .ok rows →
        ((rows.length ≠ names.length ∨ maxRowLen rows ≠ names.length) →
          wrangle input names = .error .shapeError)
        ∧ (rows.length = names.length → maxRowLen rows = names.length →
          wrangle input names =
            .ok (rows.map (fun r => r.map some
              ++ List.replicate (names.length - r.length) (none : Cell))))) := by
  refine ⟨by decide, by decide, ?_, ?_, ?_⟩
  · intro t e h
    unfold parseCell at h
    by_cases hd : t = ['-']
    · simp [hd] at h
    · rw [if_neg hd] at h
      unfold texttoint at h
      by_cases he : t = []
      · simp [he] at h
      · rw [if_neg he] at h
        refine ⟨?_, he, hd⟩
        split at h
        · split at h
          · cases h
          · exact (Except.error.inj h).symm
        · split at h
          · cases h
          · exact (Except.error.inj h).symm
  · intro input names e h
    unfold wrangle
    rw [h]
  · intro input names rows hp
    constructor
    · intro hbad
      by_cases h1 : rows.length = names.length
      · have h2 : maxRowLen rows ≠ names.length := by
          rcases hbad with hb | hb
          · exact absurd h1 hb
          · exact hb
        simp [wrangle, hp, h1, h2]
      · simp [wrangle, hp, h1]
    · intro h1 h2
      simp [wrangle, hp, h1, h2]

/-- C7 (witness): the amended statement instantiated on the malformed
token `x` and on a 3-row text against two labels. -/
theorem c7_amended_parsing_witness :
    ((PyErr.valueError (String.mk ['x']) : PyErr) = .valueError (String.mk ['x'])
      ∧ ['x'] ≠ ([] : List Char) ∧ ['x'] ≠ ['-'])
    ∧ wrangle "x" ["A"] = .error (.valueError "x")
    ∧ wrangle "1,2\n3,4\n5,6" ["A", "B"] = .error .shapeError :=
  ⟨c7_amended_parsing.2.2.1 ['x'] (.valueError (String.mk ['x'])) (by decide),
   c7_amended_parsing.2.2.2.1 "x" ["A"] (.valueError "x") (by decide),
   (c7_amended_parsing.2.2.2.2 "1,2\n3,4\n5,6" ["A", "B"]
      [[1, 2], [3, 4], [5, 6]] (by decide)).1 (by decide)⟩

/-- Characterisation of a true cost comparison on two `some` cells. -/
theorem costLt_some_iff {x y : Int} : costLt (some x) (some y) = true ↔ x < y := by
  simp [costLt]

/-- A true cost comparison forces both cells to be integers. -/
theorem costLt_true_some {a b : Cell} (h : costLt a b = true) :
    ∃ x y, a = some x ∧ b = some y ∧ x < y := by
  cases a with
  | none => simp [costLt] at h
  | some x =>
    cases b with
    | none => simp [costLt] at h
    | some y => exact ⟨x, y, rfl, rfl, by simpa [costLt] using h⟩

/-- Transitivity of the cost comparison. -/
theorem costLt_trans {a b c : Cell} (h1 : costLt a b = true) (h2 : costLt b c = true) :
    costLt a c = true := by
  obtain ⟨x, y, rfl, rfl, hxy⟩ := costLt_true_some h1
  obtain ⟨y', z, hy, rfl, hyz⟩ := costLt_true_some h2
  cases hy
  exact costLt_some_iff.mpr (lt_trans hxy hyz)

/-- From `r < cur` and not `b < cur`, with `b` an integer cell,
conclude `r < b`. -/
theorem costLt_of_lt_of_not_lt {r cur b : Cell} (h1 : costLt r cur = true)
    (h2 : costLt b cur = false) (hb : ∃ n, b = some n) : costLt r b = true := by
  obtain ⟨x, y, rfl, rfl, hxy⟩ := costLt_true_some h1
  obtain ⟨n, rfl⟩ := hb
  have hny : ¬(n < y) := by simpa [costLt] using h2
  exact costLt_some_iff.mpr (lt_of_lt_of_le hxy (le_of_not_lt hny))

/-- Head of an insertion into a non-empty list. -/
theorem insertByCost_head_cons (e x : Edge) (xs : List Edge) :
    (insertByCost e (x :: xs)).head? = some (if costLt e.2.2 x.2.2 then e else x) := by
  unfold insertByCost
  by_cases h : costLt e.2.2 x.2.2 <;> simp [h]

/-- Head of an insertion, phrased through the first-minimum step. -/
theorem insertByCost_head (e : Edge) (acc : List Edge) :
    (insertByCost e acc).head? = firstMinStep acc.head? e := by
  cases acc with
  | nil => rfl
  | cons x xs =>
    rw [insertByCost_head_cons]
    cases h : costLt e.2.2 x.2.2 <;> simp [firstMinStep, h]

/-- The head of the insertion-sort fold is the fold of the
first-minimum step. -/
theorem sortFold_head : ∀ (l : List Edge) (acc : List Edge),
    (l.foldl (fun a e => insertByCost e a) acc).head? = l.foldl firstMinStep acc.head? := by
  intro l
  induction l with
  | nil => intro acc; rfl
  | cons e l ih =>
    intro acc
    show ((l.foldl (fun a e => insertByCost e a) (insertByCost e acc))).head? = _
    rw [ih (insertByCost e acc), insertByCost_head]
    rfl

/-- The head of the stable ascending sort is the first minimum-cost
element. -/
theorem sortByCost_head (l : List Edge) : (sortByCost l).head? = firstMin l := by
  unfold sortByCost firstMin
  rw [sortFold_head]
  rfl

/-- The first-minimum fold on a list of integer-cost edges returns an
element of the list that is strictly cheaper than everything before it
and not more expensive than anything after it. -/
theorem firstMin_some_spec : ∀ (l : List Edge) (cur r : Edge),
    (∀ x ∈ cur :: l, ∃ n, x.2.2 = some n) →
    l.foldl firstMinStep (some cur) = some r →
    ∃ p q, cur :: l = p ++ r :: q
      ∧ (∀ x ∈ p, costLt r.2.2 x.2.2 = true)
      ∧ (∀ x ∈ q, costLt x.2.2 r.2.2 = false) := by
  intro l
  induction l with
  | nil =>
    intro cur r _ h
    cases h
    exact ⟨[], [], rfl, by simp, by simp⟩
  | cons b l ih =>
    intro cur r hsome h
    have hstep : (b :: l).foldl firstMinStep (some cur)
        = l.foldl firstMinStep (firstMinStep (some cur) b) := rfl
    rw [hstep] at h
    by_cases hb : costLt b.2.2 cur.2.2 = true
    · rw [show firstMinStep (some cur) b = some b by simp [firstMinStep, hb]] at h
      have hsome' : ∀ x ∈ b :: l, ∃ n, x.2.2 = some n := by
        intro x hx
        exact hsome x (by simp at hx ⊢; tauto)
      obtain ⟨p', q', hdec, hp', hq'⟩ := ih b r hsome' h
      cases p' with
      | nil =>
        simp only [List.nil_append] at hdec
        injection hdec with h1 h2
        subst h1
        subst h2
        refine ⟨[cur], l, by simp, ?_, hq'⟩
        intro x hx
        simp at hx
        subst hx
        exact hb
      | cons y p'' =>
        rw [List.cons_append] at hdec
        injection hdec with h1 h2
        subst h1
        refine ⟨cur :: b :: p'', q', by simp [h2], ?_, hq'⟩
        intro x hx
        rcases List.mem_cons.mp hx with h3 | hx'
        · rw [h3]
          exact costLt_trans (hp' b (by simp)) hb
        · exact hp' x (by simpa using hx')
    · have hbf : costLt b.2.2 cur.2.2 = false := by simpa using hb
      rw [show firstMinStep (some cur) b = some cur by simp [firstMinStep, hbf]] at h
      have hsome' : ∀ x ∈ cur :: l, ∃ n, x.2.2 = some n := by
        intro x hx
        exact hsome x (by simp at hx ⊢; tauto)
      obtain ⟨p', q', hdec, hp', hq'⟩ := ih cur r hsome' h
      cases p' with
      | nil =>
        simp only [List.nil_append] at hdec
        injection hdec with h1 h2
        subst h1
        subst h2
        refine ⟨[], b :: l, by simp, by simp, ?_⟩
        intro x hx
        rcases List.mem_cons.mp hx with rfl | hx'
        · exact hbf
        · exact hq' x hx'
      | cons y p'' =>
        rw [List.cons_append] at hdec
        injection hdec with h1 h2
        subst h1
        refine ⟨cur :: b :: p'', q', by simp [h2], ?_, hq'⟩
        intro x hx
        rcases List.mem_cons.mp hx with h3 | hx'
        · rw [h3]
          exact hp' cur (by simp)
        · rcases List.mem_cons.mp hx' with h4 | hx''
          · rw [h4]
            exact costLt_of_lt_of_not_lt (hp' cur (by simp)) hbf
              (hsome b (by simp))
          · exact hp' x (by simp [hx''])

/-- Membership in an insertion. -/
theorem mem_insertByCost {x e : Edge} {l : List Edge} :
    x ∈ insertByCost e l ↔ x = e ∨ x ∈ l := by
  induction l with
  | nil => simp [insertByCost]
  | cons a as ih =>
    unfold insertByCost
    by_cases h : costLt e.2.2 a.2.2
    · simp [h]
    · simp [h, ih]
      tauto

/-- Membership in the insertion-sort fold. -/
theorem mem_sortFold : ∀ (l acc : List Edge) (x : Edge),
    x ∈ l.foldl (fun a e => insertByCost e a) acc ↔ x ∈ acc ∨ x ∈ l := by
  intro l
  induction l with
  | nil => simp
  | cons e l ih =>
    intro acc x
    show x ∈ l.foldl _ (insertByCost e acc) ↔ _
    rw [ih (insertByCost e acc) x, mem_insertByCost]
    simp
    tauto

/-- Sorting preserves membership. -/
theorem mem_sortByCost {x : Edge} {l : List Edge} : x ∈ sortByCost l ↔ x ∈ l := by
  unfold sortByCost
  rw [mem_sortFold]
  simp

/-- Insertion never produces the empty list. -/
theorem insertByCost_ne_nil (e : Edge) (l : List Edge) : insertByCost e l ≠ [] := by
  cases l with
  | nil => simp [insertByCost]
  | cons a as =>
    unfold insertByCost
    by_cases h : costLt e.2.2 a.2.2 <;> simp [h]

/-- The insertion-sort fold is empty only for empty inputs. -/
theorem sortFold_eq_nil : ∀ (l acc : List Edge),
    l.foldl (fun a e => insertByCost e a) acc = [] ↔ acc = [] ∧ l = [] := by
  intro l
  induction l with
  | nil => simp
  | cons e l ih =>
    intro acc
    show l.foldl _ (insertByCost e acc) = [] ↔ _
    rw [ih]
    simp [insertByCost_ne_nil]

/-- Sorting preserves emptiness. -/
theorem sortByCost_eq_nil {l : List Edge} : sortByCost l = [] ↔ l = [] := by
  unfold sortByCost
  rw [sortFold_eq_nil]
  simp

/-- `get_shortest_edges` over per-row lists filtered to the non-empty
ones and sorted equals the list of sorted-row heads. -/
theorem gse_filterMap : ∀ (f : String → List Edge) (ns : List String),
    getShortestEdges (((ns.map f).filter (fun l => !l.isEmpty)).map sortByCost)
      = .ok (ns.filterMap (fun r => (sortByCost (f r)).head?)) := by
  intro f ns
  induction ns with
  | nil => rfl
  | cons r ns ih =>
    by_cases he : (f r).isEmpty
    · have hnil : f r = [] := by simpa using he
      have hcond : (!(f r).isEmpty) = false := by simp [he]
      simp only [List.map_cons, List.filter_cons, hcond, Bool.false_eq_true, if_false,
        List.filterMap_cons, hnil]
      rw [show sortByCost [] = [] from rfl]
      simp only [List.head?_nil]
      exact ih
    · have hne : f r ≠ [] := by simpa using he
      have hsne : sortByCost (f r) ≠ [] := fun hs => hne (sortByCost_eq_nil.mp hs)
      cases hh : (sortByCost (f r)).head? with
      | none =>
        exact absurd (List.head?_eq_none_iff.mp hh) hsne
      | some e =>
        have hcond : (!(f r).isEmpty) = true := by simp [he]
        simp only [List.map_cons, List.filter_cons, hcond, if_true,
          List.filterMap_cons, hh]
        simp only [getShortestEdges, hh, ih]

/-- Membership in a row's edge list. -/
theorem mem_rowEdges {names : List String} {cells : List (List Cell)} {r : String} {x : Edge} :
    x ∈ rowEdges names cells r ↔
      ∃ c ∈ names, r ≠ c ∧ locFn names cells r c ≠ some 0
        ∧ x = (r, c, locFn names cells r c) := by
  unfold rowEdges
  rw [List.mem_filterMap]
  constructor
  · rintro ⟨c, hc, hfc⟩
    by_cases h1 : r = c
    · simp [h1] at hfc
    · by_cases h2 : locFn names cells r c = some 0
      · simp [h1, h2] at hfc
      · simp only [h1, h2, if_false, if_neg, Option.some.injEq] at hfc
        refine ⟨c, hc, h1, h2, ?_⟩
        simpa using hfc.symm
  · rintro ⟨c, hc, h1, h2, rfl⟩
    exact ⟨c, hc, by simp [h1, h2]⟩

/-- Every edge of a row's list has that row as its first component. -/
theorem rowEdges_fst {names : List String} {cells : List (List Cell)} {r : String} {x : Edge}
    (h : x ∈ rowEdges names cells r) : x.1 = r := by
  obtain ⟨c, _, _, _, rfl⟩ := mem_rowEdges.mp h
  rfl

/-- On a matrix without NaN cells every row edge has an integer cost. -/
theorem rowEdges_cost_some {names : List String} {cells : List (List Cell)} {r : String}
    (hr : r ∈ names) (hsome : ∀ a ∈ names, ∀ c ∈ names, locFn names cells a c ≠ none) :
    ∀ x ∈ rowEdges names cells r, ∃ n, x.2.2 = some n := by
  intro x hx
  obtain ⟨c, hc, _, _, rfl⟩ := mem_rowEdges.mp hx
  have := hsome r hr c hc
  cases hl : locFn names cells r c with
  | none => exact absurd hl this
  | some n => exact ⟨n, by simp⟩

/-- A filterMap over distinct labels, each producing edges tagged with
its own label, yields at most one edge per label. -/
theorem countP_filterMap_fst_le_one (g : String → Option Edge) (ns : List String)
    (hnd : ns.Nodup) (hkey : ∀ a e, g a = some e → e.1 = a) (r : String) :
    (ns.filterMap g).countP (fun e => e.1 == r) ≤ 1 := by
  induction ns with
  | nil => simp
  | cons a ns ih =>
    obtain ⟨hna, hnd'⟩ := List.nodup_cons.mp hnd
    cases hg : g a with
    | none =>
      simp only [List.filterMap_cons, hg]
      exact ih hnd'
    | some e =>
      simp only [List.filterMap_cons, hg]
      by_cases hr : e.1 = r
      · have har : a = r := by rw [← hkey a e hg, hr]
        rw [List.countP_cons_of_pos _ _ (by simp [hr])]
        have hzero : (ns.filterMap g).countP (fun e => e.1 == r) = 0 := by
          apply List.countP_eq_zero.mpr
          intro e' he'
          obtain ⟨b, hb, hgb⟩ := List.mem_filterMap.mp he'
          have hfb : e'.1 = b := hkey b e' hgb
          have hbr : b ≠ r := by
            intro hbr
            exact hna (by rw [har, ← hbr] at *; exact hb)
          simp [hfb, hbr]
        rw [hzero]
      · rw [List.countP_cons_of_neg _ _ (by simp [hr])]
        exact ih hnd'

/-- C5: on a matrix with distinct labels and no NaN cells the candidate
list `get_shortest_edges (get_nodes df)` contains, for every vertex
with at least one incident edge, exactly one edge: the first entry of
that vertex's cost-sorted edge list, which is a minimum-cost incident
edge preceded in column-scan order only by strictly more expensive
ones; vertices with no incident edges contribute nothing. -/
theorem c5_cheapest_edge_per_vertex (names : List String) (cells : List (List Cell))
    (hnd : names.Nodup)
    (hsome : ∀ r ∈ names, ∀ c ∈ names, locFn names cells r c ≠ none) :
    ∃ cand, getShortestEdges (getNodes names cells) = .ok cand
      ∧ (∀ r ∈ names, rowEdges names cells r ≠ [] →
          ∃ e, e ∈ cand ∧ e.1 = r ∧ IsFirstMin (rowEdges names cells r) e)
      ∧ (∀ e ∈ cand, e.1 ∈ names ∧ rowEdges names cells e.1 ≠ [])
      ∧ (∀ r, cand.countP (fun e => e.1 == r) ≤ 1) := by
  refine ⟨names.filterMap (fun r => (sortByCost (rowEdges names cells r)).head?),
    ?_, ?_, ?_, ?_⟩
  · show getShortestEdges (((names.map (rowEdges names cells)).filter
        (fun l => !l.isEmpty)).map sortByCost) = _
    exact gse_filterMap (rowEdges names cells) names
  · intro r hr hne
    have hsne : sortByCost (rowEdges names cells r) ≠ [] :=
      fun hs => hne (sortByCost_eq_nil.mp hs)
    cases hh : (sortByCost (rowEdges names cells r)).head? with
    | none => exact absurd (List.head?_eq_none_iff.mp hh) hsne
    | some e =>
      have hmem : e ∈ rowEdges names cells r :=
        mem_sortByCost.mp (List.mem_of_mem_head? (by simp [hh]))
      refine ⟨e, List.mem_filterMap.mpr ⟨r, hr, hh⟩, rowEdges_fst hmem, ?_⟩
      obtain ⟨cur, rest, hcr⟩ : ∃ cur rest, rowEdges names cells r = cur :: rest := by
        cases hl : rowEdges names cells r with
        | nil => exact absurd hl hne
        | cons a b => exact ⟨a, b, rfl⟩
      have hfm : firstMin (rowEdges names cells r) = some e := by
        rw [← sortByCost_head]
        exact hh
      rw [hcr] at hfm
      have hfm' : rest.foldl firstMinStep (some cur) = some e := hfm
      have hsome' : ∀ x ∈ cur :: rest, ∃ n, x.2.2 = some n := by
        rw [← hcr]
        exact rowEdges_cost_some hr hsome
      obtain ⟨p, q, hdec, hp, hq⟩ := firstMin_some_spec rest cur e hsome' hfm'
      exact ⟨p, q, by rw [hcr, hdec], hp, hq⟩
  · intro e he
    obtain ⟨r, hr, hh⟩ := List.mem_filterMap.mp he
    have hmem : e ∈ rowEdges names cells r :=
      mem_sortByCost.mp (List.mem_of_mem_head? (by simp [hh]))
    have hfst : e.1 = r := rowEdges_fst hmem
    rw [hfst]
    refine ⟨hr, fun hnil => ?_⟩
    rw [hnil] at hmem
    cases hmem
  · intro r
    refine countP_filterMap_fst_le_one _ names hnd ?_ r
    intro a e hg
    have hmem : e ∈ rowEdges names cells a :=
      mem_sortByCost.mp (List.mem_of_mem_head? (by simp [hg]))
    exact rowEdges_fst hmem

/-- C5 (witness): the statement instantiated on the 2-vertex matrix
with a single edge of cost 5, with both hypotheses checked by
evaluation. -/
theorem c5_cheapest_edge_per_vertex_witness :
    (["A", "B"] : List String).Nodup
    ∧ (∀ r ∈ (["A", "B"] : List String), ∀ c ∈ (["A", "B"] : List String),
        locFn ["A", "B"] [[some 0, some 5], [some 5, some 0]] r c ≠ none)
    ∧ ∃ cand, getShortestEdges (getNodes ["A", "B"] [[some 0, some 5], [some 5, some 0]]) = .ok cand
      ∧ (∀ r ∈ (["A", "B"] : List String),
          rowEdges ["A", "B"] [[some 0, some 5], [some 5, some 0]] r ≠ [] →
          ∃ e, e ∈ cand ∧ e.1 = r
            ∧ IsFirstMin (rowEdges ["A", "B"] [[some 0, some 5], [some 5, some 0]] r) e)
      ∧ (∀ e ∈ cand, e.1 ∈ (["A", "B"] : List String)
          ∧ rowEdges ["A", "B"] [[some 0, some 5], [some 5, some 0]] e.1 ≠ [])
      ∧ (∀ r, cand.countP (fun e => e.1 == r) ≤ 1) :=
  ⟨by decide, by decide,
   c5_cheapest_edge_per_vertex ["A", "B"] [[some 0, some 5], [some 5, some 0]]
     (by decide) (by decide)⟩

theorem codeStep_cases (loc : String → String → Cell) (s : List String) (p : String × String) :
    (∀ es, codeStep loc (es, s) p = (es, s))
    ∨ (p.1 ≠ p.2 ∧ loc p.1 p.2 ≠ some 0
        ∧ ¬((p.1 ++ p.2) ∈ s ∨ (p.2 ++ p.1) ∈ s)
        ∧ ∀ es, codeStep loc (es, s) p
            = (es ++ [(p.1, p.2, loc p.1 p.2)], s ++ [p.1 ++ p.2])) := by
  unfold codeStep uniqueRowStep
  by_cases h1 : p.1 = p.2
  · exact Or.inl (fun es => by simp [h1])
  · by_cases h2 : loc p.1 p.2 = some 0
    · exact Or.inl (fun es => by simp [h1, h2])
    · by_cases h3 : (p.1 ++ p.2) ∈ s ∨ (p.2 ++ p.1) ∈ s
      · exact Or.inl (fun es => by simp [h1, h2, h3])
      · exact Or.inr ⟨h1, h2, h3, fun es => by simp [h1, h2, h3]⟩

theorem codeFold_append_out (loc : String → String → Cell) :
    ∀ (ps : List (String × String)) (es : List Edge) (s : List String),
    ps.foldl (codeStep loc) (es, s)
      = (es ++ (ps.foldl (codeStep loc) ([], s)).1,
         (ps.foldl (codeStep loc) ([], s)).2) := by
  intro ps
  induction ps with
  | nil => intro es s; simp
  | cons p ps ih =>
    intro es s
    show ps.foldl (codeStep loc) (codeStep loc (es, s) p)
      = (es ++ (ps.foldl (codeStep loc) (codeStep loc ([], s) p)).1,
         (ps.foldl (codeStep loc) (codeStep loc ([], s) p)).2)
    rcases codeStep_cases loc s p with hskip | ⟨h1, h2, h3, hrec⟩
    · rw [hskip es, hskip []]
      exact ih es s
    · rw [hrec es, hrec []]
      rw [ih (es ++ [(p.1, p.2, loc p.1 p.2)]) (s ++ [p.1 ++ p.2])]
      simp only [List.nil_append]
      rw [ih [(p.1, p.2, loc p.1 p.2)] (s ++ [p.1 ++ p.2])]
      simp

theorem innerRow_as_codeFold (loc : String → String → Cell) (names : List String)
    (row : String) (t : List Edge) (s : List String) :
    names.foldl (uniqueRowStep loc row) (t, s)
      = (names.map (fun c => (row, c))).foldl (codeStep loc) (t, s) := by
  rw [List.foldl_map]
  rfl

theorem pairsOf_cons (names : List String) (r : String) (rows : List String) :
    ((r :: rows).map (fun a => names.map (fun c => (a, c)))).flatten
      = names.map (fun c => (r, c))
        ++ (rows.map (fun a => names.map (fun c => (a, c)))).flatten := by
  simp

theorem outerFold_flatten (names : List String) (loc : String → String → Cell) :
    ∀ (rows : List String) (g0 : List (List Edge)) (s0 : List String),
    (rows.foldl (uniqueOuterStep names loc) (g0, s0)).1.flatten
        = g0.flatten
          ++ (((rows.map (fun a => names.map (fun c => (a, c)))).flatten).foldl
                (codeStep loc) ([], s0)).1
    ∧ (rows.foldl (uniqueOuterStep names loc) (g0, s0)).2
        = (((rows.map (fun a => names.map (fun c => (a, c)))).flatten).foldl
                (codeStep loc) ([], s0)).2 := by
  intro rows
  induction rows with
  | nil =>
    intro g0 s0
    constructor
    · simp
    · rfl
  | cons r rows ih =>
    intro g0 s0
    have hstep : (r :: rows).foldl (uniqueOuterStep names loc) (g0, s0)
        = rows.foldl (uniqueOuterStep names loc) (uniqueOuterStep names loc (g0, s0) r) := rfl
    have hinner : uniqueOuterStep names loc (g0, s0) r
        = (if (names.foldl (uniqueRowStep loc r) ([], s0)).1.isEmpty then g0
            else g0 ++ [(names.foldl (uniqueRowStep loc r) ([], s0)).1],
           (names.foldl (uniqueRowStep loc r) ([], s0)).2) := rfl
    set inner := names.foldl (uniqueRowStep loc r) ([], s0) with hinnerdef
    have hflatg : (if inner.1.isEmpty then g0 else g0 ++ [inner.1]).flatten
        = g0.flatten ++ inner.1 := by
      by_cases hempty : inner.1.isEmpty
      · have : inner.1 = [] := by simpa using hempty
        simp [hempty, this]
      · simp [hempty]
    -- right-hand side: fold over row pairs then the rest
    have hrhs : ((r :: rows).map (fun a => names.map (fun c => (a, c)))).flatten.foldl
          (codeStep loc) ([], s0)
        = ((rows.map (fun a => names.map (fun c => (a, c)))).flatten).foldl
            (codeStep loc) (inner.1, inner.2) := by
      rw [pairsOf_cons, List.foldl_append]
      rw [← innerRow_as_codeFold loc names r [] s0]
    rw [hstep, hinner]
    obtain ⟨ihf, ihs⟩ := ih (if inner.1.isEmpty then g0 else g0 ++ [inner.1]) inner.2
    constructor
    · rw [ihf, hflatg, hrhs]
      rw [codeFold_append_out loc _ inner.1 inner.2]
      simp
    · rw [ihs, hrhs]
      rw [codeFold_append_out loc _ inner.1 inner.2]

theorem flatten_getUniqueNodes (names : List String) (cells : List (List Cell)) :
    (getUniqueNodes names cells).flatten
      = ((cellSeq names).foldl (codeStep (locFn names cells)) ([], [])).1 := by
  unfold getUniqueNodes cellSeq
  have h := (outerFold_flatten names (locFn names cells) names [] []).1
  simpa using h

theorem codeFold_eq_specFold (names : List String) (loc : String → String → Cell)
    (hinj : KeyInj names) :
    ∀ (ps : List (String × String)) (es : List Edge) (s : List String),
    (∀ p ∈ ps, p.1 ∈ names ∧ p.2 ∈ names) →
    (∀ e ∈ es, e.1 ∈ names ∧ e.2.1 ∈ names) →
    (∀ k ∈ s, ∃ e ∈ es, k = e.1 ++ e.2.1) →
    (∀ e ∈ es, (e.1 ++ e.2.1) ∈ s) →
    (ps.foldl (codeStep loc) (es, s)).1 = ps.foldl (specStep loc) es := by
  intro ps
  induction ps with
  | nil =>
    intro es s _ _ _ _
    rfl
  | cons p ps ih =>
    intro es s hps hes hks hsk
    obtain ⟨hp1, hp2⟩ := hps p (by simp)
    have hps' : ∀ q ∈ ps, q.1 ∈ names ∧ q.2 ∈ names := fun q hq => hps q (by simp [hq])
    show (ps.foldl (codeStep loc) (codeStep loc (es, s) p)).1
      = ps.foldl (specStep loc) (specStep loc es p)
    have hguard : ((p.1 ++ p.2) ∈ s ∨ (p.2 ++ p.1) ∈ s)
        ↔ es.any (samePairB p.1 p.2) = true := by
      constructor
      · rintro (hk | hk)
        · obtain ⟨e, he, hkey⟩ := hks _ hk
          obtain ⟨he1, he2⟩ := hes e he
          obtain ⟨hq1, hq2⟩ := hinj p.1 hp1 p.2 hp2 e.1 he1 e.2.1 he2 hkey
          refine List.any_eq_true.mpr ⟨e, he, ?_⟩
          simp [samePairB, ← hq1, ← hq2]
        · obtain ⟨e, he, hkey⟩ := hks _ hk
          obtain ⟨he1, he2⟩ := hes e he
          obtain ⟨hq1, hq2⟩ := hinj p.2 hp2 p.1 hp1 e.1 he1 e.2.1 he2 hkey
          refine List.any_eq_true.mpr ⟨e, he, ?_⟩
          simp [samePairB, ← hq1, ← hq2]
      · intro hany
        obtain ⟨e, he, hsp⟩ := List.any_eq_true.mp hany
        have hsp' : (e.1 = p.1 ∧ e.2.1 = p.2) ∨ (e.1 = p.2 ∧ e.2.1 = p.1) := by
          simpa [samePairB, Bool.or_eq_true, Bool.and_eq_true, beq_iff_eq] using hsp
        rcases hsp' with ⟨h1, h2⟩ | ⟨h1, h2⟩
        · left
          rw [← h1, ← h2]
          exact hsk e he
        · right
          rw [← h1, ← h2]
          exact hsk e he
    by_cases h1 : p.1 = p.2
    · have hc : codeStep loc (es, s) p = (es, s) := by
        unfold codeStep uniqueRowStep
        simp [h1]
      have hs2 : specStep loc es p = es := by
        unfold specStep
        simp [h1]
      rw [hc, hs2]
      exact ih es s hps' hes hks hsk
    · by_cases h2 : loc p.1 p.2 = some 0
      · have hc : codeStep loc (es, s) p = (es, s) := by
          unfold codeStep uniqueRowStep
          simp [h1, h2]
        have hs2 : specStep loc es p = es := by
          unfold specStep
          simp [h1, h2]
        rw [hc, hs2]
        exact ih es s hps' hes hks hsk
      · by_cases h3 : (p.1 ++ p.2) ∈ s ∨ (p.2 ++ p.1) ∈ s
        · have hany : es.any (samePairB p.1 p.2) = true := hguard.mp h3
          have hc : codeStep loc (es, s) p = (es, s) := by
            unfold codeStep uniqueRowStep
            simp [h1, h2, h3]
          have hs2 : specStep loc es p = es := by
            unfold specStep
            simp [h1, h2, hany]
          rw [hc, hs2]
          exact ih es s hps' hes hks hsk
        · have hany : ¬(es.any (samePairB p.1 p.2) = true) := fun ha => h3 (hguard.mpr ha)
          have hc : codeStep loc (es, s) p
              = (es ++ [(p.1, p.2, loc p.1 p.2)], s ++ [p.1 ++ p.2]) := by
            unfold codeStep uniqueRowStep
            simp [h1, h2, h3]
          have hs2 : specStep loc es p = es ++ [(p.1, p.2, loc p.1 p.2)] := by
            unfold specStep
            simp [h1, h2, hany]
          rw [hc, hs2]
          apply ih
          · exact hps'
          · intro e he
            rcases List.mem_append.mp he with he' | he'
            · exact hes e he'
            · have : e = (p.1, p.2, loc p.1 p.2) := by simpa using he'
              rw [this]
              exact ⟨hp1, hp2⟩
          · intro k hk
            rcases List.mem_append.mp hk with hk' | hk'
            · obtain ⟨e, he, hkey⟩ := hks k hk'
              exact ⟨e, List.mem_append_left _ he, hkey⟩
            · have : k = p.1 ++ p.2 := by simpa using hk'
              exact ⟨(p.1, p.2, loc p.1 p.2), List.mem_append_right _ (by simp), this⟩
          · intro e he
            rcases List.mem_append.mp he with he' | he'
            · exact List.mem_append_left _ (hsk e he')
            · have : e = (p.1, p.2, loc p.1 p.2) := by simpa using he'
              rw [this]
              exact List.mem_append_right _ (by simp)

theorem samePairB_comm (r c : String) : samePairB r c = samePairB c r :=
  funext fun e => by simp [samePairB, Bool.or_comm]

theorem mem_cellSeq {names : List String} {p : String × String} :
    p ∈ cellSeq names ↔ p.1 ∈ names ∧ p.2 ∈ names := by
  obtain ⟨a, b⟩ := p
  simp only [cellSeq, List.mem_flatten, List.mem_map]
  constructor
  · rintro ⟨l, ⟨r, hr, rfl⟩, hab⟩
    obtain ⟨c, hc, hrc⟩ := List.mem_map.mp hab
    injection hrc with hr1 hr2
    subst hr1
    subst hr2
    exact ⟨hr, hc⟩
  · rintro ⟨ha, hb⟩
    exact ⟨names.map (fun c => (a, c)), ⟨a, ha, rfl⟩, List.mem_map.mpr ⟨b, hb, rfl⟩⟩

theorem specStep_sub (loc : String → String → Cell) (acc : List Edge) (p : String × String)
    {e : Edge} (h : e ∈ acc) : e ∈ specStep loc acc p := by
  unfold specStep
  by_cases h1 : p.1 = p.2
  · simpa [h1] using h
  · by_cases h2 : loc p.1 p.2 = some 0
    · simpa [h1, h2] using h
    · by_cases h3 : acc.any (samePairB p.1 p.2)
      · simpa [h1, h2, h3] using h
      · simp only [h1, h2, h3, if_neg, if_false, Bool.false_eq_true]
        exact List.mem_append_left _ h

theorem specFold_mem_mono (loc : String → String → Cell) :
    ∀ (ps : List (String × String)) (acc : List Edge) (e : Edge),
    e ∈ acc → e ∈ ps.foldl (specStep loc) acc := by
  intro ps
  induction ps with
  | nil => intro acc e h; exact h
  | cons p ps ih =>
    intro acc e h
    exact ih (specStep loc acc p) e (specStep_sub loc acc p h)

theorem specFold_prop (loc : String → String → Cell) (P : Edge → Prop)
    (hnew : ∀ p : String × String, p.1 ≠ p.2 → loc p.1 p.2 ≠ some 0 →
      P (p.1, p.2, loc p.1 p.2)) :
    ∀ (ps : List (String × String)) (acc : List Edge),
    (∀ e ∈ acc, P e) → ∀ e ∈ ps.foldl (specStep loc) acc, P e := by
  intro ps
  induction ps with
  | nil => intro acc hacc e he; exact hacc e he
  | cons p ps ih =>
    intro acc hacc
    apply ih
    intro e he
    unfold specStep at he
    by_cases h1 : p.1 = p.2
    · exact hacc e (by simpa [h1] using he)
    · by_cases h2 : loc p.1 p.2 = some 0
      · exact hacc e (by simpa [h1, h2] using he)
      · by_cases h3 : acc.any (samePairB p.1 p.2)
        · exact hacc e (by simpa [h1, h2, h3] using he)
        · simp only [h1, h2, h3, if_neg, if_false, Bool.false_eq_true] at he
          rcases List.mem_append.mp he with he' | he'
          · exact hacc e he'
          · have : e = (p.1, p.2, loc p.1 p.2) := by simpa using he'
            rw [this]
            exact hnew p h1 h2

theorem specFold_pairCount_le_one (loc : String → String → Cell) :
    ∀ (ps : List (String × String)) (acc : List Edge),
    (∀ r c, acc.countP (samePairB r c) ≤ 1) →
    ∀ r c, (ps.foldl (specStep loc) acc).countP (samePairB r c) ≤ 1 := by
  intro ps
  induction ps with
  | nil => intro acc hacc; exact hacc
  | cons p ps ih =>
    intro acc hacc
    apply ih
    intro r c
    unfold specStep
    by_cases h1 : p.1 = p.2
    · simpa [h1] using hacc r c
    · by_cases h2 : loc p.1 p.2 = some 0
      · simpa [h1, h2] using hacc r c
      · by_cases h3 : acc.any (samePairB p.1 p.2)
        · simpa [h1, h2, h3] using hacc r c
        · simp only [h1, h2, h3, if_neg, if_false, Bool.false_eq_true]
          rw [List.countP_append]
          have hzero : acc.countP (samePairB p.1 p.2) = 0 := by
            apply List.countP_eq_zero.mpr
            intro a ha hsp
            exact h3 (List.any_eq_true.mpr ⟨a, ha, hsp⟩)
          by_cases hmatch : samePairB r c (p.1, p.2, loc p.1 p.2) = true
          · have hsp' : (p.1 = r ∧ p.2 = c) ∨ (p.1 = c ∧ p.2 = r) := by
              simpa [samePairB, Bool.or_eq_true, Bool.and_eq_true, beq_iff_eq] using hmatch
            have hfun : samePairB r c = samePairB p.1 p.2 := by
              rcases hsp' with ⟨hq1, hq2⟩ | ⟨hq1, hq2⟩
              · rw [hq1, hq2]
              · rw [hq1, hq2, samePairB_comm]
            rw [hfun, hzero]
            cases hy : samePairB p.1 p.2 (p.1, p.2, loc p.1 p.2) <;>
              simp [List.countP_cons, hy]
          · have hone : List.countP (samePairB r c) [(p.1, p.2, loc p.1 p.2)] = 0 := by
              simp [List.countP, List.countP.go, hmatch]
            rw [hone]
            simpa using hacc r c

theorem specStep_pairMem (loc : String → String → Cell) (acc : List Edge)
    (p : String × String) (h1 : p.1 ≠ p.2) (h2 : loc p.1 p.2 ≠ some 0) :
    ∃ e ∈ specStep loc acc p, samePairB p.1 p.2 e = true := by
  unfold specStep
  by_cases h3 : acc.any (samePairB p.1 p.2)
  · obtain ⟨e, he, hsp⟩ := List.any_eq_true.mp h3
    exact ⟨e, by simp [h1, h2, h3, he], hsp⟩
  · refine ⟨(p.1, p.2, loc p.1 p.2), ?_, by simp [samePairB]⟩
    simp only [h1, h2, h3, if_neg, if_false, Bool.false_eq_true]
    exact List.mem_append_right _ (by simp)

theorem specFold_complete (loc : String → String → Cell) (names : List String)
    (r c : String) (hr : r ∈ names) (hc : c ∈ names) (hrc : r ≠ c)
    (hnz : loc r c ≠ some 0) :
    ∃ e ∈ (cellSeq names).foldl (specStep loc) [], samePairB r c e = true := by
  have hmem : (r, c) ∈ cellSeq names := mem_cellSeq.mpr ⟨hr, hc⟩
  obtain ⟨l1, l2, hsplit⟩ := List.append_of_mem hmem
  rw [hsplit, List.foldl_append]
  obtain ⟨e, he, hsp⟩ := specStep_pairMem loc (l1.foldl (specStep loc) []) (r, c) hrc hnz
  exact ⟨e, specFold_mem_mono loc l2 _ e he, hsp⟩

/-- C2 (amended): for every cost matrix whose label set has
collision-free concatenations (for instance distinct single-character
labels), the flattened `get_unique_nodes` result equals the spec's
pair-based row-major first-occurrence scan; every recorded edge is
off-diagonal and non-zero with the cost of its own cell; and every
unordered pair of distinct labels carrying a non-zero cost in either
orientation appears exactly once. -/
theorem c2_amended_distinct_edges (names : List String) (cells : List (List Cell))
    (hinj : KeyInj names) :
    (getUniqueNodes names cells).flatten = distinctEdgesSpec names cells
    ∧ (∀ e ∈ (getUniqueNodes names cells).flatten,
        e.1 ≠ e.2.1 ∧ e.2.2 ≠ some 0 ∧ e.2.2 = locFn names cells e.1 e.2.1)
    ∧ (∀ r ∈ names, ∀ c ∈ names, r ≠ c →
        (locFn names cells r c ≠ some 0 ∨ locFn names cells c r ≠ some 0) →
        pairCount (getUniqueNodes names cells).flatten r c = 1) := by
  have hflat : (getUniqueNodes names cells).flatten = distinctEdgesSpec names cells := by
    rw [flatten_getUniqueNodes]
    unfold distinctEdgesSpec
    apply codeFold_eq_specFold names (locFn names cells) hinj (cellSeq names) [] []
    · intro p hp
      exact mem_cellSeq.mp hp
    · intro e he
      cases he
    · intro k hk
      cases hk
    · intro e he
      cases he
  refine ⟨hflat, ?_, ?_⟩
  · rw [hflat]
    unfold distinctEdgesSpec
    exact specFold_prop (locFn names cells)
      (fun e => e.1 ≠ e.2.1 ∧ e.2.2 ≠ some 0 ∧ e.2.2 = locFn names cells e.1 e.2.1)
      (fun p h1 h2 => ⟨h1, h2, rfl⟩) (cellSeq names) []
      (fun e he => absurd he (List.not_mem_nil e))
  · intro r hr c hc hrc hnz
    rw [hflat]
    unfold pairCount distinctEdgesSpec
    have hle : ((cellSeq names).foldl (specStep (locFn names cells)) []).countP
        (samePairB r c) ≤ 1 :=
      specFold_pairCount_le_one _ (cellSeq names) [] (by intro r' c'; simp) r c
    have hpos : 0 < ((cellSeq names).foldl (specStep (locFn names cells)) []).countP
        (samePairB r c) := by
      rcases hnz with hnz | hnz
      · obtain ⟨e, he, hsp⟩ :=
          specFold_complete (locFn names cells) names r c hr hc hrc hnz
        exact List.countP_pos_iff.mpr ⟨e, he, hsp⟩
      · obtain ⟨e, he, hsp⟩ :=
          specFold_complete (locFn names cells) names c r hc hr (Ne.symm hrc) hnz
        refine List.countP_pos_iff.mpr ⟨e, he, ?_⟩
        rw [samePairB_comm]
        exact hsp
    omega

/-- C2 (witness): the amended statement instantiated on the 2-vertex
single-edge matrix, whose label set A, B is collision-free. -/
theorem c2_amended_distinct_edges_witness :
    KeyInj ["A", "B"]
    ∧ ((getUniqueNodes ["A", "B"] [[some 0, some 5], [some 5, some 0]]).flatten
          = distinctEdgesSpec ["A", "B"] [[some 0, some 5], [some 5, some 0]]
        ∧ (∀ e ∈ (getUniqueNodes ["A", "B"] [[some 0, some 5], [some 5, some 0]]).flatten,
            e.1 ≠ e.2.1 ∧ e.2.2 ≠ some 0
              ∧ e.2.2 = locFn ["A", "B"] [[some 0, some 5], [some 5, some 0]] e.1 e.2.1)
        ∧ (∀ r ∈ (["A", "B"] : List String), ∀ c ∈ (["A", "B"] : List String), r ≠ c →
            (locFn ["A", "B"] [[some 0, some 5], [some 5, some 0]] r c ≠ some 0
              ∨ locFn ["A", "B"] [[some 0, some 5], [some 5, some 0]] c r ≠ some 0) →
            pairCount (getUniqueNodes ["A", "B"]
              [[some 0, some 5], [some 5, some 0]]).flatten r c = 1)) :=
  ⟨by unfold KeyInj; decide,
   c2_amended_distinct_edges ["A", "B"] [[some 0, some 5], [some 5, some 0]]
     (by unfold KeyInj; decide)⟩
